import Mathlib

/-
Verification of the reconciliation and conflict-resolution engine of
`s3_linked_folders` (file `s3_linked_folders.py`).

The embedding translates the source functions into executable Lean
definitions:

* S3 object listings become lists of `RemoteItem` records (the `Key` and
  `ETag` fields of the dictionaries returned by `_list_s3_bucket_items`);
* a local directory and a remote bucket each become a finite association
  list from relative POSIX path to file content (`FileMap`); the MD5
  digest used by `_hash_local_file`, and echoed by the store as the
  quoted `ETag`, is an explicit parameter `md5 : String → String`;
* `_push_s3_bucket` / `_pull_s3_bucket` become state transformers that
  also emit the list of store/filesystem operations they perform, so
  that ordering and frame properties can be stated about the operation
  sequence itself.

The embedding covers relative POSIX paths, which is the only form the
program produces: local names come from `_recursive_listdir` (paths
relative to the root, `/`-separated) and remote names are S3 keys.
-/

set_option autoImplicit false

namespace S3Linked

/-- One entry of the bucket listing returned by `_list_s3_bucket_items`:
the `Key` and `ETag` fields of the S3 object dictionary. -/
structure RemoteItem where
  key : String
  etag : String
deriving DecidableEq, Repr

/-- Python `s[1:-1]` as applied to the `ETag` value in
`_compare_remote_to_local` (line 117): drop the first and the last
character, unconditionally. -/
def stripEtag (s : String) : String := (s.drop 1).dropRight 1

/-- The key set of `name2remote = {x["Key"]: x for x in ...}`: the keys of
the listing, first occurrence order, duplicates collapsed. -/
def remoteKeys (items : List RemoteItem) : List String :=
  (items.map (fun x => x.key)).dedup

/-- Lookup in the dict `name2remote`: a dict comprehension keeps the last
item written for a key. -/
def name2remoteEtag (items : List RemoteItem) (k : String) : Option String :=
  (items.reverse.find? (fun x => x.key == k)).map (fun x => x.etag)

/-- The four file-state classes returned by `_compare_remote_to_local`.
The Python values are sets; we carry them as lists (in construction
order) and state all set-level facts via membership. -/
structure ComparisonResult where
  remote_only : List String
  local_only : List String
  hash_different : List String
  hash_same : List String
deriving DecidableEq, Repr

/-- The Boolean test applied to a shared name in the comparison loop
(lines 115-121): the local hash equals the `ETag` with first and last
character removed.  The `none` branch cannot occur for a shared name
(the dict holds every remote key); Python would raise a `KeyError`
there. -/
def sameHash (items : List RemoteItem) (hashOf : String → String) (n : String) : Bool :=
  match name2remoteEtag items n with
  | some e => hashOf n == stripEtag e
  | none => false

/-- `_compare_remote_to_local`, abstracted over the bucket listing, the
local file set and the local hashing function.  Python iterates sets;
since the output classes are sets, the iteration order is immaterial and
we keep the listing / local order. -/
def compare_remote_to_local (items : List RemoteItem) (localFiles : List String)
    (hashOf : String → String) : ComparisonResult :=
  let rkeys := remoteKeys items
  let shared := localFiles.filter (fun n => rkeys.contains n)
  { remote_only := rkeys.filter (fun n => !(localFiles.contains n))
    local_only := localFiles.filter (fun n => !(rkeys.contains n))
    hash_different := shared.filter (fun n => !(sameHash items hashOf n))
    hash_same := shared.filter (fun n => sameHash items hashOf n) }

/-! ### Path model

`_get_next_revision` goes through `pathlib.Path`: it splits the argument
into components, keeps the parent directory untouched and rewrites only
the base name.  For a relative POSIX path, `Path`'s components are the
nonempty groups between `/` separators. -/

/-- Split a character list at every `'/'` (the groups keep no slash).
Total and structural; never returns the empty list. -/
def splitOnSlash : List Char → List (List Char)
  | [] => [[]]
  | c :: cs =>
    if c = '/' then [] :: splitOnSlash cs
    else
      match splitOnSlash cs with
      | [] => [[c]]
      | g :: gs => (c :: g) :: gs

/-- The components of a relative POSIX path, as `pathlib.Path` computes
them: nonempty groups between slashes (empty groups, from doubled or
trailing slashes, are dropped). -/
def pathParts (p : String) : List String :=
  ((splitOnSlash p.data).filter (fun g => !g.isEmpty)).map (fun g => String.mk g)

/-- Render a component list back to a POSIX path, as `Path.__str__` and
`as_posix` do for a relative path. -/
def joinParts : List String → String
  | [] => ""
  | [p] => p
  | p :: ps => p ++ "/" ++ joinParts ps

/-! ### Revision namer

`_get_next_revision` matches the base name against the regex
`rf"\[{prefix}(?P<rev>\d+)\](?P<name>.+)"` with `re.match` (anchored at
the start, not at the end).  The tag is interpolated into the pattern
verbatim, without `re.escape`.  The embedding interprets, inside the
tag, an ordinary character as itself and `'.'` as the regex
any-character-but-newline wildcard; tags whose characters carry any
other regex meaning (such as `'('` or `'|'`, which make the interpolated
pattern ill-formed or restructure it) are outside the embedding's
domain. -/

/-- How one tag character, placed in the pattern verbatim, matches one
subject character: `'.'` is the regex wildcard (anything but newline),
every other modelled character matches literally. -/
def charMatches (pc c : Char) : Bool :=
  if pc = '.' then c ≠ '\n' else pc = c

/-- Match the interpolated tag against the front of the subject,
returning the rest of the subject. -/
def matchTag : List Char → List Char → Option (List Char)
  | [], cs => some cs
  | _ :: _, [] => none
  | pc :: ps, c :: cs => if charMatches pc c then matchTag ps cs else none

/-- Value of a decimal digit character. -/
def digitVal (c : Char) : Nat := c.toNat - '0'.toNat

/-- Python `int` on a nonempty decimal-digit string. -/
def parseDigits (ds : List Char) : Nat :=
  ds.foldl (fun n c => 10 * n + digitVal c) 0

/-- The part of the pattern after the tag:
`(?P<rev>\d+)\](?P<name>.+)`.  A nonempty maximal digit run (greedy
`\d+` followed by the literal `']'` succeeds only on the full run), the
`']'`, then at least one non-newline character; the `name` group is the
greedy `.+`, i.e. the remaining characters up to the first newline.
Returns the numeric value of the `rev` group and the `name` group. -/
def afterTagMatch (rest1 : List Char) : Option (Nat × String) :=
  let ds := rest1.takeWhile (fun c => c.isDigit)
  let rest2 := rest1.dropWhile (fun c => c.isDigit)
  match ds, rest2 with
  | [], _ => none
  | _ :: _, ']' :: rest3 =>
    let g := rest3.takeWhile (fun c => c ≠ '\n')
    if g.isEmpty then none else some (parseDigits ds, String.mk g)
  | _ :: _, _ => none

/-- `re.match(rf"\[{prefix}(?P<rev>\d+)\](?P<name>.+)", name)`: the
subject must start with the literal `'['`, then the tag, then the rest
of the pattern (`afterTagMatch`); anchored at the start only. -/
def matchRevision (tag : String) (name : String) : Option (Nat × String) :=
  match name.data with
  | [] => none
  | c :: rest =>
    if c = '[' then
      match matchTag tag.data rest with
      | none => none
      | some rest1 => afterTagMatch rest1
    else none

/-- The base-name rewrite of `_get_next_revision`: on a match, increment
the revision and rebuild `f"[{prefix}{rev}]{name}"` from the groups;
otherwise prepend a fresh `[tag0]` to the whole base name. -/
def nextRevisionBase (tag : String) (name : String) : String :=
  match matchRevision tag name with
  | some (rev, rest) => "[" ++ tag ++ Nat.repr (rev + 1) ++ "]" ++ rest
  | none => "[" ++ tag ++ "0]" ++ name

/-- `_get_next_revision` (lines 125-159): split the path, rewrite the
base name (`filename.name`), reattach the parent
(`filename.parent / ...`), rendered as a POSIX string. -/
def get_next_revision (filename : String) (tag : String) : String :=
  let parts := pathParts filename
  joinParts (parts.dropLast ++ [nextRevisionBase tag (parts.getLastD "")])

example : get_next_revision "filename.png" "loc" = "[loc0]filename.png" := by decide
example : get_next_revision "[rem0]filename.png" "rem" = "[rem1]filename.png" := by decide
example : get_next_revision "folder/filename.png" "loc" = "folder/[loc0]filename.png" := by decide
example : get_next_revision "folder/[loc99]filename.png" "loc" = "folder/[loc100]filename.png" := by decide
example : get_next_revision "subfolder/[rev9]filename.ext" "rev" = "subfolder/[rev10]filename.ext" := by decide

/-! ### State model of the sync engine

A local directory and a remote bucket are each a finite map from
relative POSIX path to file content, carried as an association list with
distinct keys maintained by the operations.  The bucket listing exposes,
for every object, its key and the quoted MD5 digest of its content as
the `ETag` (docstrings of `_hash_local_file` and
`_list_s3_bucket_items`). -/

/-- A directory tree or a bucket: relative path to file content. -/
abbrev FileMap := List (String × String)

/-- Read the file or object at `k`. -/
def fmLookup (m : FileMap) (k : String) : Option String :=
  (m.find? (fun p => p.1 == k)).map (fun p => p.2)

/-- Delete the file or object at `k` (`delete()` / `unlink()`). -/
def fmErase (m : FileMap) (k : String) : FileMap :=
  m.filter (fun p => !(p.1 == k))

/-- Write content `v` at `k`, overwriting any previous entry
(`put_object` / `copy_from` destination / `download_file` target). -/
def fmInsert (m : FileMap) (k : String) (v : String) : FileMap :=
  fmErase m k ++ [(k, v)]

/-- The set of paths present, as `_recursive_listdir` returns it for a
directory and as the listing keys give it for a bucket. -/
def fmKeys (m : FileMap) : List String := (m.map (fun p => p.1)).dedup

/-- `_list_s3_bucket_items` on a bucket holding `remote`: one item per
object, whose `ETag` is the MD5 hex digest of the content wrapped in
double quotes. -/
def listBucket (md5 : String → String) (remote : FileMap) : List RemoteItem :=
  remote.map (fun p => { key := p.1, etag := "\"" ++ md5 p.2 ++ "\"" })

/-- `_hash_local_file (local_dir / name)`: the MD5 digest of the local
file's content.  Only evaluated by the program at names present locally;
the `""` default is never reached there. -/
def localHash (md5 : String → String) (localDir : FileMap) (name : String) : String :=
  md5 ((fmLookup localDir name).getD "")

/-- `_compare_remote_to_local(bucket_name, local_dir)` on explicit
states: list the bucket, list the directory, compare. -/
def compareState (md5 : String → String) (localDir remote : FileMap) : ComparisonResult :=
  compare_remote_to_local (listBucket md5 remote) (fmKeys localDir) (localHash md5 localDir)

/-- The store and filesystem operations the sync engine performs, in
program order. -/
inductive S3Op
  /-- `s3.Object(bucket, dst).copy_from(CopySource=bucket/src)` -/
  | copyRemote (src dst : String)
  /-- `s3.Object(bucket, k).delete()` -/
  | deleteRemote (k : String)
  /-- `_upload_file_to_s3(bucket, local_dir, k)` -/
  | upload (k : String)
  /-- `shutil.copy2(local_dir/src, local_dir/dst)` -/
  | copyLocal (src dst : String)
  /-- `(local_dir/k).unlink()` -/
  | deleteLocal (k : String)
  /-- `s3client.download_file(bucket, k, local_dir/k)` -/
  | download (k : String)
deriving DecidableEq, Repr

/-- One iteration of the first `push` loop (lines 171-176) on the
remote state: if `safe`, copy the current remote object at `name` to
`_get_next_revision(name, "rem")`; then delete the object at `name`.
The `none` branch is unreachable: every name of the pass is a distinct
remote key and no prior iteration deletes it (Python's `copy_from`
would raise on a vanished key). -/
def pushRevStep (safe : Bool) (remote : FileMap) (name : String) : FileMap :=
  let remote1 :=
    if safe then
      match fmLookup remote name with
      | some c => fmInsert remote (get_next_revision name "rem") c
      | none => remote
    else remote
  fmErase remote1 name

/-- `_push_s3_bucket` (lines 162-181): compare, then the revision/delete
pass over `hash_different | remote_only`, then the upload pass over
`local_only | hash_different`.  Python iterates each union as a set in
unspecified order; the two classes in each union are disjoint and we fix
the listed order.  Returns the new remote state and the operation
trace.  Upload reads the local file, which exists for every name of the
second pass; the `""` default is never reached. -/
def push_s3_bucket (md5 : String → String) (localDir remote : FileMap) (safe : Bool) :
    FileMap × List S3Op :=
  let st := compareState md5 localDir remote
  let pass1 := st.hash_different ++ st.remote_only
  let remote1 := pass1.foldl (pushRevStep safe) remote
  let ops1 := pass1.flatMap (fun name =>
    (if safe then [S3Op.copyRemote name (get_next_revision name "rem")] else [])
      ++ [S3Op.deleteRemote name])
  let pass2 := st.local_only ++ st.hash_different
  let remote2 := pass2.foldl (fun rem name =>
    fmInsert rem name ((fmLookup localDir name).getD "")) remote1
  (remote2, ops1 ++ pass2.map (fun name => S3Op.upload name))

/-- One iteration of the first `pull` loop (lines 193-198) on the local
state: if `safe`, copy the local file at `name` to
`_get_next_revision(name, "loc")`; then unlink the file at `name`.  As
in `pushRevStep`, the `none` branch is unreachable. -/
def pullRevStep (safe : Bool) (localDir : FileMap) (name : String) : FileMap :=
  let local1 :=
    if safe then
      match fmLookup localDir name with
      | some c => fmInsert localDir (get_next_revision name "loc") c
      | none => localDir
    else localDir
  fmErase local1 name

/-- `_pull_s3_bucket` (lines 184-205): compare, then the revision/unlink
pass over `hash_different | local_only`, then the download pass over
`remote_only | hash_different` (parent directories are created as
needed, which the path-to-content map subsumes).  Returns the new local
state and the operation trace. -/
def pull_s3_bucket (md5 : String → String) (localDir remote : FileMap) (safe : Bool) :
    FileMap × List S3Op :=
  let st := compareState md5 localDir remote
  let pass1 := st.hash_different ++ st.local_only
  let local1 := pass1.foldl (pullRevStep safe) localDir
  let ops1 := pass1.flatMap (fun name =>
    (if safe then [S3Op.copyLocal name (get_next_revision name "loc")] else [])
      ++ [S3Op.deleteLocal name])
  let pass2 := st.remote_only ++ st.hash_different
  let local2 := pass2.foldl (fun loc name =>
    fmInsert loc name ((fmLookup remote name).getD "")) local1
  (local2, ops1 ++ pass2.map (fun name => S3Op.download name))

/-! ### `RemoteBucket.remote_items` (lines 230-238)

`remote_items` evaluates `set(_list_s3_bucket_items(...))`.  The listing
elements are Python `dict`s; a `dict` is unhashable, so `set()` raises
`TypeError` as soon as it inserts the first element.  We model the
Python values far enough to carry that semantics: an item is a `dict`,
`dict`s are not hashable, and `set` of a list succeeds exactly when
every element is hashable. -/

/-- The Python runtime representation of a listing element: a `dict`
(of string-valued fields, which is all `Key`/`ETag` need here). -/
inductive PyItemRepr
  | dict (fields : List (String × String))
deriving DecidableEq, Repr

/-- Python hashability of a listing element: `dict` is unhashable. -/
def pyHashable : PyItemRepr → Bool
  | .dict _ => false

/-- Python `set(xs)`: succeeds with the distinct elements when every
element is hashable, raises `TypeError: unhashable type` otherwise. -/
def pySet (xs : List PyItemRepr) : Except String (List PyItemRepr) :=
  if xs.all pyHashable then Except.ok xs.dedup
  else Except.error "TypeError: unhashable type: dict"

/-- The `dict` that `_list_s3_bucket_items` yields for one object. -/
def itemDict (x : RemoteItem) : PyItemRepr :=
  .dict [("Key", x.key), ("ETag", x.etag)]

/-- `RemoteBucket.remote_items` on a bucket whose listing is `items`. -/
def remote_items (items : List RemoteItem) : Except String (List PyItemRepr) :=
  pySet (items.map itemDict)

/-- The `x["Key"]` access in `remote_filenames`. -/
def pyKey : PyItemRepr → String
  | .dict fields => ((fields.find? (fun p => p.1 == "Key")).map (fun p => p.2)).getD ""

/-- `RemoteBucket.remote_filenames`: the key of every element of
`remote_items`; an exception from `remote_items` propagates. -/
def remote_filenames (items : List RemoteItem) : Except String (List String) :=
  match remote_items items with
  | Except.error e => Except.error e
  | Except.ok s => Except.ok (s.map pyKey)

/-! ### Spec-side definitions

Used only to state claims that describe the comparator or the revision
namer in the spec's words, for comparison against the source-derived
definitions above. -/

/-- Modelled from the spec: "stripping any surrounding quote characters
the store may wrap around its integrity tag" — remove one leading and
one trailing `'"'` exactly when both are present. -/
def stripQuotesSpec (s : String) : String :=
  if 2 ≤ s.length ∧ s.front = '"' ∧ s.back = '"' then (s.drop 1).dropRight 1 else s

/-- ASCII lower-casing of one character, by code point. -/
def lowerVal (c : Char) : Nat :=
  if 65 ≤ c.toNat ∧ c.toNat ≤ 90 then c.toNat + 32 else c.toNat

/-- Modelled from the spec: the "case-insensitively for hex" comparison
— equality after ASCII case folding. -/
def eqCaseInsensitive (a b : String) : Bool :=
  a.data.map lowerVal == b.data.map lowerVal

/-- Spec-side tag matcher, modelled from the spec: "tag strings
containing regex metacharacters must be escaped when matched" — every
tag character matches only itself. -/
def matchTagLiteral : List Char → List Char → Option (List Char)
  | [], cs => some cs
  | _ :: _, [] => none
  | pc :: ps, c :: cs => if pc = c then matchTagLiteral ps cs else none

/-- `matchRevision` with the tag matched as the escaped literal the spec
asks for. -/
def matchRevisionLiteral (tag : String) (name : String) : Option (Nat × String) :=
  match name.data with
  | [] => none
  | c :: rest =>
    if c = '[' then
      match matchTagLiteral tag.data rest with
      | none => none
      | some rest1 => afterTagMatch rest1
    else none

/-- The base-name rewrite under the spec's literal-tag matching. -/
def nextRevisionBaseLiteral (tag : String) (name : String) : String :=
  match matchRevisionLiteral tag name with
  | some (rev, rest) => "[" ++ tag ++ Nat.repr (rev + 1) ++ "]" ++ rest
  | none => "[" ++ tag ++ "0]" ++ name

/-- `_get_next_revision` as the spec describes it: tag escaped, matched
literally. -/
def get_next_revision_literal (filename : String) (tag : String) : String :=
  let parts := pathParts filename
  joinParts (parts.dropLast ++ [nextRevisionBaseLiteral tag (parts.getLastD "")])

/-- A character with no special meaning in a regex pattern.  Only for
tags made of such characters does the interpolated pattern match the tag
text literally. -/
def regexOrdinary (c : Char) : Bool :=
  !(['.', '\\', '(', ')', '[', ']', '\x7b', '\x7d', '?', '*', '+', '|', '^', '$'].contains c)

/-- Whether a sync operation acts on the file at path `p`: copies it
away, deletes it, uploads it or downloads onto it.  (The destination of
a revision copy is not the acted-on path.) -/
def opActsOn : S3Op → String → Bool
  | S3Op.copyRemote src _, p => src == p
  | S3Op.deleteRemote k, p => k == p
  | S3Op.upload k, p => k == p
  | S3Op.copyLocal src _, p => src == p
  | S3Op.deleteLocal k, p => k == p
  | S3Op.download k, p => k == p

/-! ### Concrete scenario states

Small concrete states used to instantiate the claims.  The digest
parameter is instantiated with the identity function, a collision-free
stand-in for MD5 on the one-letter contents used. -/

/-- Stand-in content digest for concrete scenarios. -/
def idDigest : String → String := fun c => c

/-- Local directory `{a ↦ A, b ↦ B}` of the convergence scenario. -/
def localAB : FileMap := [("a", "A"), ("b", "B")]

/-- Remote bucket `{a ↦ A, c ↦ C}` of the convergence scenario. -/
def remoteAC : FileMap := [("a", "A"), ("c", "C")]

/-- First `push(safe=True)` of the convergence scenario. -/
def pushOnce : FileMap × List S3Op := push_s3_bucket idDigest localAB remoteAC true

/-- Second `push(safe=True)`, on the state the first one produced. -/
def pushTwice : FileMap × List S3Op := push_s3_bucket idDigest localAB pushOnce.1 true

/-- Local side of the single-conflict scenario: `p` with content `X`. -/
def localP : FileMap := [("p", "X")]

/-- Remote side of the single-conflict scenario: `p` with content `Y`. -/
def remoteP : FileMap := [("p", "Y")]

/-- Local side of the revision-collision scenario: the file `[rem0]f`. -/
def localRevF : FileMap := [("[rem0]f", "X")]

/-- Remote side of the revision-collision scenario: `[rem0]f` with the
same content as local, plus an orphaned `f`. -/
def remoteRevF : FileMap := [("[rem0]f", "X"), ("f", "Y")]

/-! ### Comparator membership lemmas -/

theorem mem_remote_only {items : List RemoteItem} {localFiles : List String}
    {hashOf : String → String} {x : String} :
    x ∈ (compare_remote_to_local items localFiles hashOf).remote_only ↔
      x ∈ items.map (fun i => i.key) ∧ x ∉ localFiles := by
  simp [compare_remote_to_local, remoteKeys, List.mem_filter, List.mem_dedup,
    List.contains]

theorem mem_local_only {items : List RemoteItem} {localFiles : List String}
    {hashOf : String → String} {x : String} :
    x ∈ (compare_remote_to_local items localFiles hashOf).local_only ↔
      x ∈ localFiles ∧ x ∉ items.map (fun i => i.key) := by
  simp [compare_remote_to_local, remoteKeys, List.mem_filter, List.mem_dedup,
    List.contains]

theorem mem_hash_same {items : List RemoteItem} {localFiles : List String}
    {hashOf : String → String} {x : String} :
    x ∈ (compare_remote_to_local items localFiles hashOf).hash_same ↔
      x ∈ localFiles ∧ x ∈ items.map (fun i => i.key) ∧
        sameHash items hashOf x = true := by
  simp [compare_remote_to_local, remoteKeys, List.mem_filter, List.mem_dedup,
    List.contains, and_assoc]
  tauto

theorem mem_hash_different {items : List RemoteItem} {localFiles : List String}
    {hashOf : String → String} {x : String} :
    x ∈ (compare_remote_to_local items localFiles hashOf).hash_different ↔
      x ∈ localFiles ∧ x ∈ items.map (fun i => i.key) ∧
        sameHash items hashOf x = false := by
  simp [compare_remote_to_local, remoteKeys, List.mem_filter, List.mem_dedup,
    List.contains, and_assoc]
  tauto

/-! ### Path lemmas -/

theorem splitOnSlash_ne_nil (cs : List Char) : splitOnSlash cs ≠ [] := by
  cases cs with
  | nil => simp [splitOnSlash]
  | cons c cs =>
    simp only [splitOnSlash]
    split
    · simp
    · split <;> simp

theorem splitOnSlash_cons_slash (cs : List Char) :
    splitOnSlash ('/' :: cs) = [] :: splitOnSlash cs := by
  simp [splitOnSlash]

theorem splitOnSlash_append {xs : List Char} (cs : List Char) (h : '/' ∉ xs) :
    splitOnSlash (xs ++ cs) = (splitOnSlash cs).modifyHead (fun g => xs ++ g) := by
  induction xs with
  | nil =>
    obtain ⟨g, gs, hg⟩ := List.exists_cons_of_ne_nil (splitOnSlash_ne_nil cs)
    simp [hg]
  | cons x xs ih =>
    have hx : x ≠ '/' := by intro hx; exact h (hx ▸ List.mem_cons_self x xs)
    have h' : '/' ∉ xs := fun hm => h (List.mem_cons_of_mem x hm)
    obtain ⟨g, gs, hg⟩ := List.exists_cons_of_ne_nil (splitOnSlash_ne_nil cs)
    rw [List.cons_append]
    simp only [splitOnSlash, if_neg hx, ih h', hg, List.modifyHead_cons]
    simp

theorem mk_data (s : String) : String.mk s.data = s := rfl

theorem pathParts_joinParts {ps : List String}
    (h : ∀ s ∈ ps, s ≠ "" ∧ '/' ∉ s.data) : pathParts (joinParts ps) = ps := by
  induction ps with
  | nil => rfl
  | cons p ps ih =>
    have hp := h p (List.mem_cons_self p ps)
    have hps : ∀ s ∈ ps, s ≠ "" ∧ '/' ∉ s.data :=
      fun s hs => h s (List.mem_cons_of_mem p hs)
    have hpdata : p.data.isEmpty = false := by
      cases hd : p.data with
      | nil => exact absurd (String.ext (by simp [hd])) hp.1
      | cons a l => simp
    cases ps with
    | nil =>
      have h2 : splitOnSlash p.data = [p.data] := by
        have h3 := @splitOnSlash_append p.data [] hp.2
        simpa [splitOnSlash] using h3
      show pathParts (joinParts [p]) = [p]
      have h1 : joinParts [p] = p := rfl
      rw [h1]
      unfold pathParts
      rw [h2, List.filter_cons]
      simp [hpdata, mk_data]
    | cons q qs =>
      have h1 : (joinParts (p :: q :: qs)).data
          = p.data ++ '/' :: (joinParts (q :: qs)).data := by
        show (p ++ "/" ++ joinParts (q :: qs)).data = _
        simp [String.data_append]
      have h2 : splitOnSlash (joinParts (p :: q :: qs)).data
          = p.data :: splitOnSlash (joinParts (q :: qs)).data := by
        rw [h1, splitOnSlash_append _ hp.2, splitOnSlash_cons_slash]
        simp
      have h3 := ih hps
      unfold pathParts at h3 ⊢
      rw [h2, List.filter_cons]
      simp only [hpdata, Bool.not_false, if_true, List.map_cons, mk_data]
      rw [h3]

/-! ### Finite-map lemmas -/

theorem fmLookup_cons (e : String × String) (m : FileMap) (p : String) :
    fmLookup (e :: m) p = if e.1 = p then some e.2 else fmLookup m p := by
  unfold fmLookup
  rw [List.find?_cons]
  by_cases hep : e.1 = p
  · simp [hep]
  · have hb : (e.1 == p) = false := beq_eq_false_iff_ne.mpr hep
    rw [hb, if_neg hep]

theorem fmErase_cons (e : String × String) (m : FileMap) (k : String) :
    fmErase (e :: m) k = if e.1 = k then fmErase m k else e :: fmErase m k := by
  unfold fmErase
  rw [List.filter_cons]
  by_cases he : e.1 = k <;> simp [he]

theorem fmLookup_erase_ne (m : FileMap) (k p : String) (h : p ≠ k) :
    fmLookup (fmErase m k) p = fmLookup m p := by
  induction m with
  | nil => rfl
  | cons e m ih =>
    rw [fmErase_cons, fmLookup_cons]
    by_cases he : e.1 = k
    · rw [if_pos he, ih, if_neg (by rw [he]; exact Ne.symm h)]
    · rw [if_neg he, fmLookup_cons]
      by_cases hep : e.1 = p
      · rw [if_pos hep, if_pos hep]
      · rw [if_neg hep, if_neg hep, ih]

theorem fmLookup_insert_ne (m : FileMap) (k p v : String) (h : p ≠ k) :
    fmLookup (fmInsert m k v) p = fmLookup m p := by
  have h2 : List.find? (fun q => q.1 == p) [(k, v)] = none := by
    have hb : (k == p) = false := beq_eq_false_iff_ne.mpr (Ne.symm h)
    simp [List.find?, hb]
  have h3 := fmLookup_erase_ne m k p h
  unfold fmLookup at h3 ⊢
  unfold fmInsert
  rw [List.find?_append, h2, Option.or_none]
  exact h3

theorem fmLookup_insert_self (m : FileMap) (k v : String) :
    fmLookup (fmInsert m k v) k = some v := by
  have h1 : List.find? (fun q => q.1 == k) (fmErase m k) = none := by
    rw [List.find?_eq_none]
    intro q hq
    have h2 := (List.mem_filter.mp hq).2
    simpa using h2
  unfold fmLookup fmInsert
  rw [List.find?_append, h1, Option.none_or]
  simp [List.find?]

theorem fmLookup_pushRevStep_ne (safe : Bool) (rem : FileMap) (name p : String)
    (h1 : p ≠ name) (h2 : p ≠ get_next_revision name "rem") :
    fmLookup (pushRevStep safe rem name) p = fmLookup rem p := by
  unfold pushRevStep
  cases safe with
  | false => simpa using fmLookup_erase_ne rem name p h1
  | true =>
    cases hc : fmLookup rem name with
    | none => simpa [hc] using fmLookup_erase_ne rem name p h1
    | some c =>
      simp only [hc, if_true]
      rw [fmLookup_erase_ne _ name p h1, fmLookup_insert_ne _ _ _ _ h2]

theorem fmLookup_pullRevStep_ne (safe : Bool) (loc : FileMap) (name p : String)
    (h1 : p ≠ name) (h2 : p ≠ get_next_revision name "loc") :
    fmLookup (pullRevStep safe loc name) p = fmLookup loc p := by
  unfold pullRevStep
  cases safe with
  | false => simpa using fmLookup_erase_ne loc name p h1
  | true =>
    cases hc : fmLookup loc name with
    | none => simpa [hc] using fmLookup_erase_ne loc name p h1
    | some c =>
      simp only [hc, if_true]
      rw [fmLookup_erase_ne _ name p h1, fmLookup_insert_ne _ _ _ _ h2]

theorem fmLookup_foldl_pushRev (safe : Bool) (names : List String) (rem : FileMap)
    (p : String) (h1 : p ∉ names) (h2 : ∀ q ∈ names, p ≠ get_next_revision q "rem") :
    fmLookup (names.foldl (pushRevStep safe) rem) p = fmLookup rem p := by
  induction names generalizing rem with
  | nil => rfl
  | cons q names ih =>
    rw [List.foldl_cons,
      ih _ (fun hm => h1 (List.mem_cons_of_mem q hm))
        (fun r hr => h2 r (List.mem_cons_of_mem q hr)),
      fmLookup_pushRevStep_ne safe rem q p
        (fun he => h1 (he ▸ List.mem_cons_self q names))
        (h2 q (List.mem_cons_self q names))]

theorem fmLookup_foldl_pullRev (safe : Bool) (names : List String) (loc : FileMap)
    (p : String) (h1 : p ∉ names) (h2 : ∀ q ∈ names, p ≠ get_next_revision q "loc") :
    fmLookup (names.foldl (pullRevStep safe) loc) p = fmLookup loc p := by
  induction names generalizing loc with
  | nil => rfl
  | cons q names ih =>
    rw [List.foldl_cons,
      ih _ (fun hm => h1 (List.mem_cons_of_mem q hm))
        (fun r hr => h2 r (List.mem_cons_of_mem q hr)),
      fmLookup_pullRevStep_ne safe loc q p
        (fun he => h1 (he ▸ List.mem_cons_self q names))
        (h2 q (List.mem_cons_self q names))]

theorem fmLookup_foldl_insert (names : List String) (f : String → String)
    (rem : FileMap) (p : String) (h1 : p ∉ names) :
    fmLookup (names.foldl (fun m name => fmInsert m name (f name)) rem) p
      = fmLookup rem p := by
  induction names generalizing rem with
  | nil => rfl
  | cons q names ih =>
    rw [List.foldl_cons, ih _ (fun hm => h1 (List.mem_cons_of_mem q hm)),
      fmLookup_insert_ne _ _ _ _
        (fun he => h1 (by rw [he]; exact List.mem_cons_self q names))]

theorem listBucket_keys (md5 : String → String) (remote : FileMap) :
    (listBucket md5 remote).map (fun i => i.key) = remote.map (fun e => e.1) := by
  simp [listBucket]

theorem mem_fmKeys {m : FileMap} {x : String} :
    x ∈ fmKeys m ↔ x ∈ m.map (fun e => e.1) := by
  simp [fmKeys, List.mem_dedup]


theorem matchTag_eq_literal (ps : List Char) (cs : List Char)
    (h : ps.all regexOrdinary = true) : matchTag ps cs = matchTagLiteral ps cs := by
  induction ps generalizing cs with
  | nil => cases cs <;> rfl
  | cons pc ps ih =>
    have hpc : regexOrdinary pc = true := by
      have := (List.all_eq_true.mp h) pc (List.mem_cons_self pc ps)
      exact this
    have hdot : pc ≠ '.' := by
      intro hd
      rw [hd] at hpc
      simp [regexOrdinary] at hpc
    have hall : ps.all regexOrdinary = true := by
      rw [List.all_eq_true] at h ⊢
      exact fun c hc => h c (List.mem_cons_of_mem pc hc)
    cases cs with
    | nil => rfl
    | cons c cs =>
      show (if charMatches pc c then matchTag ps cs else none)
        = (if pc = c then matchTagLiteral ps cs else none)
      rw [charMatches, if_neg hdot]
      by_cases hc : pc = c
      · simp [hc, ih cs hall]
      · simp [hc]

theorem matchRevision_eq_literal (tag name : String)
    (h : tag.data.all regexOrdinary = true) :
    matchRevision tag name = matchRevisionLiteral tag name := by
  unfold matchRevision matchRevisionLiteral
  cases name.data with
  | nil => rfl
  | cons c rest =>
    dsimp only
    by_cases hc : c = '['
    · rw [if_pos hc, if_pos hc, matchTag_eq_literal tag.data rest h]
    · rw [if_neg hc, if_neg hc]

theorem nextRevisionBase_eq_literal (tag b : String)
    (h : tag.data.all regexOrdinary = true) :
    nextRevisionBase tag b = nextRevisionBaseLiteral tag b := by
  unfold nextRevisionBase nextRevisionBaseLiteral
  rw [matchRevision_eq_literal tag b h]

theorem get_next_revision_eq_literal (name tag : String)
    (h : tag.data.all regexOrdinary = true) :
    get_next_revision name tag = get_next_revision_literal name tag := by
  show joinParts ((pathParts name).dropLast
      ++ [nextRevisionBase tag ((pathParts name).getLastD "")])
    = joinParts ((pathParts name).dropLast
      ++ [nextRevisionBaseLiteral tag ((pathParts name).getLastD "")])
  rw [nextRevisionBase_eq_literal tag _ h]

/-! ### Claim theorems -/

/-- C1: `_compare_remote_to_local` partitions `L ∪ R`: a path only
remote is `remote only`, a path only local is `local only`, a shared
path lands in exactly one of `hash same` / `hash different`; the four
classes are pairwise disjoint and their union is `L ∪ R`. -/
theorem comparison_is_partition (items : List RemoteItem) (localFiles : List String)
    (hashOf : String → String) (x : String) :
    (x ∈ (compare_remote_to_local items localFiles hashOf).remote_only ↔
      x ∈ items.map (fun i => i.key) ∧ x ∉ localFiles) ∧
    (x ∈ (compare_remote_to_local items localFiles hashOf).local_only ↔
      x ∈ localFiles ∧ x ∉ items.map (fun i => i.key)) ∧
    (x ∈ localFiles ∧ x ∈ items.map (fun i => i.key) →
      (x ∈ (compare_remote_to_local items localFiles hashOf).hash_same ∨
        x ∈ (compare_remote_to_local items localFiles hashOf).hash_different) ∧
      ¬(x ∈ (compare_remote_to_local items localFiles hashOf).hash_same ∧
        x ∈ (compare_remote_to_local items localFiles hashOf).hash_different)) ∧
    ¬(x ∈ (compare_remote_to_local items localFiles hashOf).remote_only ∧
      x ∈ (compare_remote_to_local items localFiles hashOf).local_only) ∧
    ¬(x ∈ (compare_remote_to_local items localFiles hashOf).remote_only ∧
      x ∈ (compare_remote_to_local items localFiles hashOf).hash_same) ∧
    ¬(x ∈ (compare_remote_to_local items localFiles hashOf).remote_only ∧
      x ∈ (compare_remote_to_local items localFiles hashOf).hash_different) ∧
    ¬(x ∈ (compare_remote_to_local items localFiles hashOf).local_only ∧
      x ∈ (compare_remote_to_local items localFiles hashOf).hash_same) ∧
    ¬(x ∈ (compare_remote_to_local items localFiles hashOf).local_only ∧
      x ∈ (compare_remote_to_local items localFiles hashOf).hash_different) ∧
    ¬(x ∈ (compare_remote_to_local items localFiles hashOf).hash_same ∧
      x ∈ (compare_remote_to_local items localFiles hashOf).hash_different) ∧
    ((x ∈ (compare_remote_to_local items localFiles hashOf).remote_only ∨
      x ∈ (compare_remote_to_local items localFiles hashOf).local_only ∨
      x ∈ (compare_remote_to_local items localFiles hashOf).hash_same ∨
      x ∈ (compare_remote_to_local items localFiles hashOf).hash_different) ↔
      (x ∈ localFiles ∨ x ∈ items.map (fun i => i.key))) := by
  have hb := Bool.eq_false_or_eq_true (sameHash items hashOf x)
  simp only [mem_remote_only, mem_local_only, mem_hash_same, mem_hash_different]
  rcases hb with h | h <;> rw [h] <;>
    simp only [Bool.true_eq_false, Bool.false_eq_true, and_false, and_true] <;> tauto

/-- Witness for C1: the shared path of a concrete state is classified in
exactly one of the two hash classes. -/
theorem comparison_is_partition_witness :
    ("a" ∈ (compare_remote_to_local [⟨"a", "\"A\""⟩] ["a", "b"]
        (fun _ => "A")).hash_same ∨
      "a" ∈ (compare_remote_to_local [⟨"a", "\"A\""⟩] ["a", "b"]
        (fun _ => "A")).hash_different) ∧
    ¬("a" ∈ (compare_remote_to_local [⟨"a", "\"A\""⟩] ["a", "b"]
        (fun _ => "A")).hash_same ∧
      "a" ∈ (compare_remote_to_local [⟨"a", "\"A\""⟩] ["a", "b"]
        (fun _ => "A")).hash_different) :=
  (comparison_is_partition [⟨"a", "\"A\""⟩] ["a", "b"] (fun _ => "A") "a").2.2.1
    ⟨by decide, by decide⟩

/-- C4: the three specified revision-naming equalities hold, and for
every relative path (any directory components, any base name) and every
tag, only the base name is rewritten: the directory components pass
through unchanged, whatever they contain. -/
theorem next_revision_spec (tag b : String) (ds : List String)
    (hds : ∀ s ∈ ds, s ≠ "" ∧ '/' ∉ s.data) (hb : b ≠ "") (hbs : '/' ∉ b.data) :
    get_next_revision "filename.ext" "rev" = "[rev0]filename.ext" ∧
    get_next_revision "[rev9]filename.ext" "rev" = "[rev10]filename.ext" ∧
    get_next_revision "subfolder/[rev9]filename.ext" "rev"
      = "subfolder/[rev10]filename.ext" ∧
    get_next_revision (joinParts (ds ++ [b])) tag
      = joinParts (ds ++ [nextRevisionBase tag b]) := by
  refine ⟨by decide, by decide, by decide, ?_⟩
  have hwf : ∀ s ∈ ds ++ [b], s ≠ "" ∧ '/' ∉ s.data := by
    intro s hs
    rcases List.mem_append.mp hs with h | h
    · exact hds s h
    · rw [List.mem_singleton.mp h]
      exact ⟨hb, hbs⟩
  show joinParts ((pathParts (joinParts (ds ++ [b]))).dropLast
      ++ [nextRevisionBase tag ((pathParts (joinParts (ds ++ [b]))).getLastD "")])
    = joinParts (ds ++ [nextRevisionBase tag b])
  rw [pathParts_joinParts hwf, List.dropLast_concat, List.getLastD_concat]

/-- Witness for C4: a directory component that itself looks like a
revisioned name (`[rev9]dir`) is left untouched while the base name is
revisioned. -/
theorem next_revision_spec_witness :
    get_next_revision "[rev9]dir/[rev9]file.ext" "rev"
      = "[rev9]dir/[rev10]file.ext" :=
  ((next_revision_spec "rev" "[rev9]file.ext" ["[rev9]dir"]
    (by intro s hs; rw [List.mem_singleton.mp hs]; exact ⟨by decide, by decide⟩)
    (by decide) (by decide)).2.2.2)

/-- C10: the revision pattern is matched only at the start of the base
filename: a base name not starting with `'['` never matches, whatever it
contains; an unmatched single-component name gets a fresh `[tag0]`
prefix prepended; concretely, `x[loc0]y` (whose `[loc0]` occurs past the
start) becomes `[loc0]x[loc0]y`, the embedded substring unchanged. -/
theorem revision_anchored_at_start :
    (∀ (tag name : String), name.data.head? ≠ some '[' →
      matchRevision tag name = none) ∧
    (∀ (tag b : String), b ≠ "" → '/' ∉ b.data → matchRevision tag b = none →
      get_next_revision b tag = "[" ++ tag ++ "0]" ++ b) ∧
    get_next_revision "x[loc0]y" "loc" = "[loc0]x[loc0]y" := by
  refine ⟨?_, ?_, by decide⟩
  · intro tag name h
    unfold matchRevision
    cases hd : name.data with
    | nil => rfl
    | cons c rest =>
      dsimp only
      rw [if_neg]
      intro hc
      rw [hd, hc] at h
      exact h rfl
  · intro tag b hb hbs hmatch
    have hsingle : pathParts b = [b] := by
      have h1 : joinParts [b] = b := rfl
      rw [← h1]
      exact pathParts_joinParts (by
        intro s hs
        rw [List.mem_singleton.mp hs]
        exact ⟨hb, hbs⟩)
    show joinParts ((pathParts b).dropLast
        ++ [nextRevisionBase tag ((pathParts b).getLastD "")]) = _
    rw [hsingle]
    show joinParts [nextRevisionBase tag b] = _
    unfold nextRevisionBase
    rw [hmatch]
    rfl

/-- Witness for C10: the anchoring conjuncts applied to the concrete
name `x[loc0]y`, whose `[loc0]` substring is not at the start. -/
theorem revision_anchored_at_start_witness :
    matchRevision "loc" "x[loc0]y" = none ∧
    get_next_revision "x[loc0]y" "loc" = "[" ++ "loc" ++ "0]" ++ "x[loc0]y" :=
  ⟨revision_anchored_at_start.1 "loc" "x[loc0]y" (by decide),
    revision_anchored_at_start.2.1 "loc" "x[loc0]y" (by decide) (by decide)
      (revision_anchored_at_start.1 "loc" "x[loc0]y" (by decide))⟩

/-- C7 counterexample: the tag is not matched as a literal token.  With
tag `"."` (a regex metacharacter), the code matches `[X0]f` — the
wildcard `.` matches `X` — and returns `[.1]f`, whereas literal
(escaped) matching would find no `[.N]` prefix and return
`[.0][X0]f`. -/
theorem next_revision_not_literal :
    get_next_revision "[X0]f" "." = "[.1]f" ∧
    get_next_revision_literal "[X0]f" "." = "[.0][X0]f" ∧
    get_next_revision "[X0]f" "." ≠ get_next_revision_literal "[X0]f" "." := by
  decide

/-- C7 amended: `_get_next_revision` always returns a value on the
embedded domain, and the tag is interpolated into the pattern unescaped:
a tag made only of regex-ordinary characters is matched literally, but a
metacharacter keeps its regex meaning (tag `"."` matches any
non-newline character in its position instead of a literal dot). -/
theorem next_revision_tag_unescaped :
    (∀ (name tag : String), tag.data.all regexOrdinary = true →
      get_next_revision name tag = get_next_revision_literal name tag) ∧
    get_next_revision "[X0]f" "." = "[.1]f" ∧
    get_next_revision_literal "[X0]f" "." = "[.0][X0]f" :=
  ⟨fun name tag h => get_next_revision_eq_literal name tag h, by decide, by decide⟩

/-- Witness for C7: the ordinary-tag conjunct at a concrete input. -/
theorem next_revision_tag_unescaped_witness :
    get_next_revision "[rem0]f" "rem" = get_next_revision_literal "[rem0]f" "rem" :=
  next_revision_tag_unescaped.1 "[rem0]f" "rem" (by decide)

/-! ### Unfolding equations for the sync engine -/

theorem push_trace_eq (md5 : String → String) (L R : FileMap) (safe : Bool) :
    (push_s3_bucket md5 L R safe).2
      = ((compareState md5 L R).hash_different
            ++ (compareState md5 L R).remote_only).flatMap
          (fun name =>
            (if safe then [S3Op.copyRemote name (get_next_revision name "rem")] else [])
              ++ [S3Op.deleteRemote name])
        ++ ((compareState md5 L R).local_only
            ++ (compareState md5 L R).hash_different).map
          (fun name => S3Op.upload name) := rfl

theorem push_state_eq (md5 : String → String) (L R : FileMap) (safe : Bool) :
    (push_s3_bucket md5 L R safe).1
      = ((compareState md5 L R).local_only
            ++ (compareState md5 L R).hash_different).foldl
          (fun rem name => fmInsert rem name ((fmLookup L name).getD ""))
          (((compareState md5 L R).hash_different
              ++ (compareState md5 L R).remote_only).foldl (pushRevStep safe) R) := rfl

theorem pull_trace_eq (md5 : String → String) (L R : FileMap) (safe : Bool) :
    (pull_s3_bucket md5 L R safe).2
      = ((compareState md5 L R).hash_different
            ++ (compareState md5 L R).local_only).flatMap
          (fun name =>
            (if safe then [S3Op.copyLocal name (get_next_revision name "loc")] else [])
              ++ [S3Op.deleteLocal name])
        ++ ((compareState md5 L R).remote_only
            ++ (compareState md5 L R).hash_different).map
          (fun name => S3Op.download name) := rfl

theorem pull_state_eq (md5 : String → String) (L R : FileMap) (safe : Bool) :
    (pull_s3_bucket md5 L R safe).1
      = ((compareState md5 L R).remote_only
            ++ (compareState md5 L R).hash_different).foldl
          (fun loc name => fmInsert loc name ((fmLookup R name).getD ""))
          (((compareState md5 L R).hash_different
              ++ (compareState md5 L R).local_only).foldl (pullRevStep safe) L) := rfl

/-- C5 counterexample: the hash comparison is not case-insensitive.
With local digest `"ab"` and remote tag `"\"AB\""`, the two are equal
case-insensitively after quote stripping, yet the code classifies the
shared path `hash different`, not `hash same`: line 118 compares the raw
strings. -/
theorem hash_comparison_case_sensitive_counterexample :
    eqCaseInsensitive "ab" (stripQuotesSpec "\"AB\"") = true ∧
    "a" ∉ (compare_remote_to_local [⟨"a", "\"AB\""⟩] ["a"]
      (fun _ => "ab")).hash_same ∧
    "a" ∈ (compare_remote_to_local [⟨"a", "\"AB\""⟩] ["a"]
      (fun _ => "ab")).hash_different := by
  decide

/-- C5 amended: for a path present on both sides the comparator puts it
in `hash same` exactly when the local digest is string-equal — case
distinctions included — to the remote `ETag` with its first and last
characters removed unconditionally (whether or not they are quote
characters); otherwise `hash different`. -/
theorem hash_same_iff_exact_match (items : List RemoteItem) (localFiles : List String)
    (hashOf : String → String) (p e : String)
    (hl : p ∈ localFiles) (hr : p ∈ items.map (fun i => i.key))
    (he : name2remoteEtag items p = some e) :
    (p ∈ (compare_remote_to_local items localFiles hashOf).hash_same ↔
      hashOf p = stripEtag e) ∧
    (p ∈ (compare_remote_to_local items localFiles hashOf).hash_different ↔
      hashOf p ≠ stripEtag e) := by
  have hs : sameHash items hashOf p = (hashOf p == stripEtag e) := by
    unfold sameHash
    rw [he]
  constructor
  · rw [mem_hash_same]
    simp [hl, hr, hs]
  · rw [mem_hash_different]
    simp [hl, hr, hs]

/-- Witness for C5 (amended): a concrete shared path whose digest equals
the stripped tag is classified `hash same`. -/
theorem hash_same_iff_exact_match_witness :
    "a" ∈ (compare_remote_to_local [⟨"a", "\"A\""⟩] ["a"]
      (fun _ => "A")).hash_same :=
  (hash_same_iff_exact_match [⟨"a", "\"A\""⟩] ["a"] (fun _ => "A") "a" "\"A\""
    (by decide) (by decide) (by decide)).1.mpr (by decide)

/-- C9: `RemoteBucket.remote_items` returns the empty set for an empty
bucket listing and raises `TypeError` for every non-empty listing — it
builds a Python `set` out of unhashable `dict` objects — and
`RemoteBucket.remote_filenames` therefore fails on every non-empty
bucket as well. -/
theorem remote_items_unhashable (items : List RemoteItem) :
    (items = [] → remote_items items = Except.ok [] ∧
      remote_filenames items = Except.ok []) ∧
    (items ≠ [] → (remote_items items).isOk = false ∧
      (remote_filenames items).isOk = false) := by
  constructor
  · intro h
    subst h
    exact ⟨rfl, rfl⟩
  · intro h
    obtain ⟨x, xs, rfl⟩ := List.exists_cons_of_ne_nil h
    have hall : ((x :: xs).map itemDict).all pyHashable = false := by
      simp [itemDict, pyHashable]
    constructor
    · unfold remote_items pySet
      rw [hall]
      rfl
    · unfold remote_filenames remote_items pySet
      rw [hall]
      rfl

/-- Witness for C9: the empty listing succeeds with the empty set; a
one-object listing raises. -/
theorem remote_items_unhashable_witness :
    (remote_items [] = Except.ok [] ∧ remote_filenames [] = Except.ok []) ∧
    ((remote_items [⟨"k", "\"e\""⟩]).isOk = false ∧
      (remote_filenames [⟨"k", "\"e\""⟩]).isOk = false) :=
  ⟨(remote_items_unhashable []).1 rfl,
    (remote_items_unhashable [⟨"k", "\"e\""⟩]).2 (by decide)⟩

/-- C2 counterexample: in the convergence scenario (local `{a, b}`,
remote `{a, c}`), re-running compare after `push(safe=True)` gives
`remote_only = {[rem0]c}`, not `{}` as claimed, and a second push is not
a no-op: it changes the remote state again (re-revisioning the
artifact). -/
theorem push_convergence_counterexample :
    (compareState idDigest localAB pushOnce.1).remote_only = ["[rem0]c"] ∧
    pushTwice.1 ≠ pushOnce.1 := by
  decide

/-- C2 amended: `push(safe=True)` revisions `c` to `[rem0]c`, deletes
`c` and uploads `b`; compare then yields `hash_same = {a, b}`,
`local_only = {}`, `hash_different = {}` and `remote_only = {[rem0]c}`
(the revisioned artifact).  A second push uploads nothing and leaves
every matching path alone, but re-revisions the artifact — `[rem0]c` is
copied to `[rem1]c` and deleted — so `remote_only` becomes
`{[rem1]c}` rather than staying unchanged. -/
theorem push_convergence :
    pushOnce.2 = [S3Op.copyRemote "c" "[rem0]c", S3Op.deleteRemote "c",
      S3Op.upload "b"] ∧
    pushOnce.1 = [("a", "A"), ("[rem0]c", "C"), ("b", "B")] ∧
    (compareState idDigest localAB pushOnce.1).hash_same = ["a", "b"] ∧
    (compareState idDigest localAB pushOnce.1).local_only = [] ∧
    (compareState idDigest localAB pushOnce.1).hash_different = [] ∧
    (compareState idDigest localAB pushOnce.1).remote_only = ["[rem0]c"] ∧
    pushTwice.2 = [S3Op.copyRemote "[rem0]c" "[rem1]c",
      S3Op.deleteRemote "[rem0]c"] ∧
    pushTwice.1 = [("a", "A"), ("b", "B"), ("[rem1]c", "C")] ∧
    (compareState idDigest localAB pushTwice.1).hash_same = ["a", "b"] ∧
    (compareState idDigest localAB pushTwice.1).local_only = [] ∧
    (compareState idDigest localAB pushTwice.1).hash_different = [] ∧
    (compareState idDigest localAB pushTwice.1).remote_only = ["[rem1]c"] := by
  decide

theorem flatMap_mem_decomp {α β : Type} (f : α → List β) {names : List α} {p : α}
    (hp : p ∈ names) (tail : List β) :
    ∃ pre post, names.flatMap f ++ tail = pre ++ f p ++ post := by
  obtain ⟨l1, l2, rfl⟩ := List.append_of_mem hp
  refine ⟨l1.flatMap f, l2.flatMap f ++ tail, ?_⟩
  simp [List.flatMap_append, List.append_assoc]

/-- C3: for every path classified `hash different` or `remote only`,
`push(safe=True)` copies the current remote object to
`next_revision(path, "rem")` and immediately afterwards deletes the
original key; `push(safe=False)` deletes it without any copy occurring
anywhere in the run; in both modes the original is deleted.  The
revisioned base name carries a `[rem<N>]` prefix.  Concretely, for a
conflict (`p` with different content on the two sides), safe push
preserves the prior remote content under `[rem0]p` while unsafe push
leaves it under no key.  The analogous facts hold for `pull` with tag
`"loc"` on local files. -/
theorem safe_revision_before_delete :
    (∀ (md5 : String → String) (L R : FileMap) (p : String),
      p ∈ (compareState md5 L R).hash_different
          ++ (compareState md5 L R).remote_only →
      (∃ pre post, (push_s3_bucket md5 L R true).2
          = pre ++ S3Op.copyRemote p (get_next_revision p "rem")
              :: S3Op.deleteRemote p :: post) ∧
      S3Op.deleteRemote p ∈ (push_s3_bucket md5 L R false).2 ∧
      (∀ src dst, S3Op.copyRemote src dst ∉ (push_s3_bucket md5 L R false).2)) ∧
    (∀ (md5 : String → String) (L R : FileMap) (p : String),
      p ∈ (compareState md5 L R).hash_different
          ++ (compareState md5 L R).local_only →
      (∃ pre post, (pull_s3_bucket md5 L R true).2
          = pre ++ S3Op.copyLocal p (get_next_revision p "loc")
              :: S3Op.deleteLocal p :: post) ∧
      S3Op.deleteLocal p ∈ (pull_s3_bucket md5 L R false).2 ∧
      (∀ src dst, S3Op.copyLocal src dst ∉ (pull_s3_bucket md5 L R false).2)) ∧
    (∀ tag b : String, ∃ n rest, (nextRevisionBase tag b).data
        = '[' :: (tag.data ++ ((Nat.repr n).data ++ ']' :: rest))) ∧
    (push_s3_bucket idDigest localP remoteP true).1
      = [("[rem0]p", "Y"), ("p", "X")] ∧
    (push_s3_bucket idDigest localP remoteP false).1 = [("p", "X")] ∧
    (pull_s3_bucket idDigest localP remoteP true).1
      = [("[loc0]p", "X"), ("p", "Y")] ∧
    (pull_s3_bucket idDigest localP remoteP false).1 = [("p", "Y")] := by
  refine ⟨?_, ?_, ?_, by decide, by decide, by decide, by decide⟩
  · intro md5 L R p hp
    refine ⟨?_, ?_, ?_⟩
    · have h := flatMap_mem_decomp
        (fun name =>
          (if true then [S3Op.copyRemote name (get_next_revision name "rem")] else [])
            ++ [S3Op.deleteRemote name]) hp
        (((compareState md5 L R).local_only
            ++ (compareState md5 L R).hash_different).map
          (fun name => S3Op.upload name))
      rw [push_trace_eq]
      obtain ⟨pre, post, heq⟩ := h
      refine ⟨pre, post, ?_⟩
      simpa using heq
    · rw [push_trace_eq]
      refine List.mem_append.mpr (Or.inl ?_)
      refine List.mem_flatMap.mpr ⟨p, hp, ?_⟩
      simp
    · intro src dst hmem
      rw [push_trace_eq] at hmem
      rcases List.mem_append.mp hmem with h1 | h1
      · rcases List.mem_flatMap.mp h1 with ⟨q, hq, hop⟩
        simp at hop
      · rcases List.mem_map.mp h1 with ⟨q, hq, hop⟩
        simp at hop
  · intro md5 L R p hp
    refine ⟨?_, ?_, ?_⟩
    · have h := flatMap_mem_decomp
        (fun name =>
          (if true then [S3Op.copyLocal name (get_next_revision name "loc")] else [])
            ++ [S3Op.deleteLocal name]) hp
        (((compareState md5 L R).remote_only
            ++ (compareState md5 L R).hash_different).map
          (fun name => S3Op.download name))
      rw [pull_trace_eq]
      obtain ⟨pre, post, heq⟩ := h
      refine ⟨pre, post, ?_⟩
      simpa using heq
    · rw [pull_trace_eq]
      refine List.mem_append.mpr (Or.inl ?_)
      refine List.mem_flatMap.mpr ⟨p, hp, ?_⟩
      simp
    · intro src dst hmem
      rw [pull_trace_eq] at hmem
      rcases List.mem_append.mp hmem with h1 | h1
      · rcases List.mem_flatMap.mp h1 with ⟨q, hq, hop⟩
        simp at hop
      · rcases List.mem_map.mp h1 with ⟨q, hq, hop⟩
        simp at hop
  · intro tag b
    unfold nextRevisionBase
    cases matchRevision tag b with
    | some pr =>
      obtain ⟨rev, rest⟩ := pr
      exact ⟨rev + 1, rest.data, by simp [String.data_append]⟩
    | none =>
      refine ⟨0, b.data, ?_⟩
      have h0 : (Nat.repr 0).data = ['0'] := rfl
      simp [String.data_append, h0]

/-- Witness for C3: the push conjunct at the concrete single-conflict
scenario. -/
theorem safe_revision_before_delete_witness :
    (∃ pre post, (push_s3_bucket idDigest localP remoteP true).2
        = pre ++ S3Op.copyRemote "p" (get_next_revision "p" "rem")
            :: S3Op.deleteRemote "p" :: post) ∧
    S3Op.deleteRemote "p" ∈ (push_s3_bucket idDigest localP remoteP false).2 ∧
    (∀ src dst, S3Op.copyRemote src dst
        ∉ (push_s3_bucket idDigest localP remoteP false).2) :=
  safe_revision_before_delete.1 idDigest localP remoteP "p" (by decide)

/-- C6: in push the revision/delete pass is a barrier completed before
any upload begins: the trace splits into revision/delete operations
followed by uploads only, and for every `hash different` path the
revision copy, the delete of the original key and the upload to that key
occur in that order. -/
theorem push_revision_pass_before_uploads :
    (∀ (md5 : String → String) (L R : FileMap) (safe : Bool),
      ∃ T1 T2, (push_s3_bucket md5 L R safe).2 = T1 ++ T2 ∧
        (∀ op ∈ T1, ∀ k, op ≠ S3Op.upload k) ∧
        (∀ op ∈ T2, ∃ k, op = S3Op.upload k)) ∧
    (∀ (md5 : String → String) (L R : FileMap) (p : String),
      p ∈ (compareState md5 L R).hash_different →
      ∃ A B C, (push_s3_bucket md5 L R true).2
        = A ++ S3Op.copyRemote p (get_next_revision p "rem")
            :: S3Op.deleteRemote p :: (B ++ S3Op.upload p :: C)) := by
  constructor
  · intro md5 L R safe
    refine ⟨_, _, push_trace_eq md5 L R safe, ?_, ?_⟩
    · intro op hop k
      rcases List.mem_flatMap.mp hop with ⟨q, hq, hopq⟩
      rcases List.mem_append.mp hopq with h | h
      · cases safe with
        | true =>
          simp only [if_true, List.mem_singleton] at h
          simp [h]
        | false =>
          simp at h
      · simp only [List.mem_singleton] at h
        simp [h]
    · intro op hop
      rcases List.mem_map.mp hop with ⟨q, hq, hopq⟩
      exact ⟨q, hopq.symm⟩
  · intro md5 L R p hp
    have hp1 : p ∈ (compareState md5 L R).hash_different
        ++ (compareState md5 L R).remote_only := List.mem_append.mpr (Or.inl hp)
    have hp2 : p ∈ (compareState md5 L R).local_only
        ++ (compareState md5 L R).hash_different := List.mem_append.mpr (Or.inr hp)
    obtain ⟨l1, l2, h1⟩ := List.append_of_mem hp1
    obtain ⟨m1, m2, h2⟩ := List.append_of_mem hp2
    refine ⟨l1.flatMap (fun name =>
        (if true then [S3Op.copyRemote name (get_next_revision name "rem")] else [])
          ++ [S3Op.deleteRemote name]),
      l2.flatMap (fun name =>
        (if true then [S3Op.copyRemote name (get_next_revision name "rem")] else [])
          ++ [S3Op.deleteRemote name])
        ++ m1.map (fun name => S3Op.upload name),
      m2.map (fun name => S3Op.upload name), ?_⟩
    rw [push_trace_eq, h1, h2]
    simp [List.flatMap_append, List.append_assoc]

/-- Witness for C6: the ordering conjuncts at the concrete
single-conflict scenario. -/
theorem push_revision_pass_before_uploads_witness :
    (∃ T1 T2, (push_s3_bucket idDigest localP remoteP true).2 = T1 ++ T2 ∧
      (∀ op ∈ T1, ∀ k, op ≠ S3Op.upload k) ∧
      (∀ op ∈ T2, ∃ k, op = S3Op.upload k)) ∧
    (∃ A B C, (push_s3_bucket idDigest localP remoteP true).2
      = A ++ S3Op.copyRemote "p" (get_next_revision "p" "rem")
          :: S3Op.deleteRemote "p" :: (B ++ S3Op.upload "p" :: C)) :=
  ⟨push_revision_pass_before_uploads.1 idDigest localP remoteP true,
    push_revision_pass_before_uploads.2 idDigest localP remoteP "p" (by decide)⟩

/-- C8 counterexample: a `hash same` path is not always left with its
content unchanged.  Local `{[rem0]f ↦ X}`, remote
`{[rem0]f ↦ X, f ↦ Y}`: `[rem0]f` is `hash same`, yet `push(safe=True)`
revisions the orphaned `f` to `[rem0]f`, overwriting the matching remote
object: its remote content changes from `X` to `Y`. -/
theorem hash_same_overwritten_counterexample :
    "[rem0]f" ∈ (compareState idDigest localRevF remoteRevF).hash_same ∧
    fmLookup remoteRevF "[rem0]f" = some "X" ∧
    fmLookup (push_s3_bucket idDigest localRevF remoteRevF true).1 "[rem0]f"
      = some "Y" := by
  decide

/-- C8 amended: a `hash same` path is never itself the object of a sync
operation — no copy reads it, no delete removes it, no upload or
download targets it — in either mode; push does not touch the local tree
and pull does not touch the bucket; and its remote (push) / local (pull)
content is unchanged provided it is not the revision destination
`next_revision(q, tag)` of some path `q` of the first pass, the only
way it can be affected (as the counterexample shows). -/
theorem hash_same_untouched (md5 : String → String) (L R : FileMap) (p : String)
    (safe : Bool) (hp : p ∈ (compareState md5 L R).hash_same) :
    (∀ op ∈ (push_s3_bucket md5 L R safe).2, opActsOn op p = false) ∧
    ((∀ q ∈ (compareState md5 L R).hash_different
        ++ (compareState md5 L R).remote_only,
        get_next_revision q "rem" ≠ p) →
      fmLookup (push_s3_bucket md5 L R safe).1 p = fmLookup R p) ∧
    (∀ op ∈ (pull_s3_bucket md5 L R safe).2, opActsOn op p = false) ∧
    ((∀ q ∈ (compareState md5 L R).hash_different
        ++ (compareState md5 L R).local_only,
        get_next_revision q "loc" ≠ p) →
      fmLookup (pull_s3_bucket md5 L R safe).1 p = fmLookup L p) := by
  have hmem := mem_hash_same.mp hp
  have hnotdiff : p ∉ (compareState md5 L R).hash_different := by
    intro hd
    have := (mem_hash_different.mp hd).2.2
    rw [hmem.2.2] at this
    simp at this
  have hnotro : p ∉ (compareState md5 L R).remote_only := by
    intro hro
    exact (mem_remote_only.mp hro).2 hmem.1
  have hnotlo : p ∉ (compareState md5 L R).local_only := by
    intro hlo
    exact (mem_local_only.mp hlo).2 hmem.2.1
  have hq1 : ∀ q ∈ (compareState md5 L R).hash_different
      ++ (compareState md5 L R).remote_only, q ≠ p := by
    intro q hq he
    subst he
    rcases List.mem_append.mp hq with h | h
    · exact hnotdiff h
    · exact hnotro h
  have hq1l : ∀ q ∈ (compareState md5 L R).hash_different
      ++ (compareState md5 L R).local_only, q ≠ p := by
    intro q hq he
    subst he
    rcases List.mem_append.mp hq with h | h
    · exact hnotdiff h
    · exact hnotlo h
  have hq2 : ∀ q ∈ (compareState md5 L R).local_only
      ++ (compareState md5 L R).hash_different, q ≠ p := by
    intro q hq he
    subst he
    rcases List.mem_append.mp hq with h | h
    · exact hnotlo h
    · exact hnotdiff h
  have hq2l : ∀ q ∈ (compareState md5 L R).remote_only
      ++ (compareState md5 L R).hash_different, q ≠ p := by
    intro q hq he
    subst he
    rcases List.mem_append.mp hq with h | h
    · exact hnotro h
    · exact hnotdiff h
  refine ⟨?_, ?_, ?_, ?_⟩
  · intro op hop
    rw [push_trace_eq] at hop
    rcases List.mem_append.mp hop with h1 | h1
    · rcases List.mem_flatMap.mp h1 with ⟨q, hq, hopq⟩
      have hqp := hq1 q hq
      rcases List.mem_append.mp hopq with h | h
      · cases safe with
        | true =>
          simp only [if_true, List.mem_singleton] at h
          simp [h, opActsOn, hqp]
        | false => simp at h
      · simp only [List.mem_singleton] at h
        simp [h, opActsOn, hqp]
    · rcases List.mem_map.mp h1 with ⟨q, hq, hopq⟩
      have hqp := hq2 q hq
      simp [← hopq, opActsOn, hqp]
  · intro hcol
    rw [push_state_eq]
    rw [fmLookup_foldl_insert _ _ _ _ (fun hpm => hq2 p hpm rfl)]
    exact fmLookup_foldl_pushRev safe _ R p (fun hpm => hq1 p hpm rfl)
      (fun q hq he => hcol q hq he.symm)
  · intro op hop
    rw [pull_trace_eq] at hop
    rcases List.mem_append.mp hop with h1 | h1
    · rcases List.mem_flatMap.mp h1 with ⟨q, hq, hopq⟩
      have hqp := hq1l q hq
      rcases List.mem_append.mp hopq with h | h
      · cases safe with
        | true =>
          simp only [if_true, List.mem_singleton] at h
          simp [h, opActsOn, hqp]
        | false => simp at h
      · simp only [List.mem_singleton] at h
        simp [h, opActsOn, hqp]
    · rcases List.mem_map.mp h1 with ⟨q, hq, hopq⟩
      have hqp := hq2l q hq
      simp [← hopq, opActsOn, hqp]
  · intro hcol
    rw [pull_state_eq]
    rw [fmLookup_foldl_insert _ _ _ _ (fun hpm => hq2l p hpm rfl)]
    exact fmLookup_foldl_pullRev safe _ L p (fun hpm => hq1l p hpm rfl)
      (fun q hq he => hcol q hq he.symm)

/-- Witness for C8 (amended): in the convergence scenario the
`hash same` path `a` keeps its remote content across a safe push. -/
theorem hash_same_untouched_witness :
    fmLookup (push_s3_bucket idDigest localAB remoteAC true).1 "a"
      = fmLookup remoteAC "a" :=
  (hash_same_untouched idDigest localAB remoteAC "a" true (by decide)).2.1
    (by decide)

end S3Linked
